import Mathlib

set_option linter.unusedVariables false

/-
  Verification development for the `web_monitoring/db.py` module:
  Pages/Versions/Diffs/Annotations stores over a SQL engine, a
  `WorkQueue` handing Diffs to reviewers, and the `diff_version`
  pipeline computing a Diff between a Version and its oldest ancestor.

  Shallow embedding conventions:
  - SQL rows become Lean structures; the tables become lists of rows held
    in a `DbState` record.  Timestamps are naturals drawn from a logical
    clock; `uuid.uuid4()` / `tempfile` fresh-name generation is modelled
    by a counter (`"id<n>"` for row identities, `"fp<n>"` for file paths).
  - JSON blobs (`dict`s) are the inductive `Jsn`; Python `str()` of such a
    blob is the executable serializer `strPy`; SHA-256 is kept abstract as
    a function parameter `sha : String -> String` (an external crypto
    primitive; nothing proved here depends on its values).
  - Python exceptions become `Except Err`; operations that mutate state
    before raising return `(Except Err result) × newState` so that the
    post-raise state is observable, exactly as in the mutable original.
-/

/-- JSON-like values, modelling the Python dict/list/str payloads. -/
inductive Jsn where
  | null : Jsn
  | bool (b : Bool) : Jsn
  | num (n : Int) : Jsn
  | str (s : String) : Jsn
  | arr (xs : List Jsn) : Jsn
  | obj (fields : List (String × Jsn)) : Jsn

/-- Python `d[k]` on a dict: first binding of key `k`, if any. -/
def objGet (j : Jsn) (k : String) : Option Jsn :=
  match j with
  | .obj fields => (fields.find? (fun p => p.1 == k)).map (fun p => p.2)
  | _ => none

mutual
/-- Python `str()` of a parsed JSON value (structure-preserving
serializer; the exact text layout is immaterial to every theorem). -/
def strPy : Jsn → String
  | .null => "None"
  | .bool b => if b then "True" else "False"
  | .num n => toString n
  | .str s => "\x27" ++ s ++ "\x27"
  | .arr xs => "[" ++ strPyList xs ++ "]"
  | .obj fields => "\x7b" ++ strPyFields fields ++ "\x7d"

def strPyList : List Jsn → String
  | [] => ""
  | [x] => strPy x
  | x :: y :: xs => strPy x ++ ", " ++ strPyList (y :: xs)

def strPyFields : List (String × Jsn) → String
  | [] => ""
  | [p] => "\x27" ++ p.1 ++ "\x27: " ++ strPy p.2
  | p :: q :: ps => "\x27" ++ p.1 ++ "\x27: " ++ strPy p.2 ++ ", " ++ strPyFields (q :: ps)
end

mutual
/-- Structural boolean equality on `Jsn` (Python `==` on parsed JSON). -/
def jeq : Jsn → Jsn → Bool
  | .null, .null => true
  | .bool a, .bool b => a == b
  | .num a, .num b => a == b
  | .str a, .str b => a == b
  | .arr a, .arr b => jeqList a b
  | .obj a, .obj b => jeqFields a b
  | _, _ => false

def jeqList : List Jsn → List Jsn → Bool
  | [], [] => true
  | x :: xs, y :: ys => jeq x y && jeqList xs ys
  | _, _ => false

def jeqFields : List (String × Jsn) → List (String × Jsn) → Bool
  | [], [] => true
  | p :: ps, q :: qs => p.1 == q.1 && jeq p.2 q.2 && jeqFields ps qs
  | _, _ => false
end

mutual
theorem jeq_refl : ∀ j : Jsn, jeq j j = true
  | .null => rfl
  | .bool b => by simp [jeq]
  | .num n => by simp [jeq]
  | .str s => by simp [jeq]
  | .arr xs => by rw [jeq]; exact jeqList_refl xs
  | .obj fields => by rw [jeq]; exact jeqFields_refl fields

theorem jeqList_refl : ∀ xs : List Jsn, jeqList xs xs = true
  | [] => rfl
  | x :: xs => by rw [jeqList, jeq_refl x, jeqList_refl xs]; rfl

theorem jeqFields_refl : ∀ ps : List (String × Jsn), jeqFields ps ps = true
  | [] => rfl
  | p :: ps => by rw [jeqFields, jeq_refl p.2, jeqFields_refl ps]; simp
end

/-- Python exception kinds observable from `db.py`. -/
inductive Err where
  | noAncestor : Err
  | pageFreezerError : Err
  | emptyWorkQueue : Err
  | pyTypeError : Err
  | pyKeyError : Err
  | pyOSError : Err
  | notFoundError : Err
  deriving DecidableEq

/-- Value stored in a text column: either genuine text or (after the
`Annotations.insert` column misalignment) a datetime. -/
inductive Cell where
  | s (v : String) : Cell
  | t (v : Nat) : Cell
  deriving DecidableEq

/-- A row of the `Versions` table (all nine columns). -/
structure VersionRow where
  uuid : String
  page_uuid : String
  capture_time : Nat
  uri : String
  version_hash : String
  source_type : String
  source_metadata : Jsn
  created_at : Nat
  updated_at : Nat

/-- The `Version` namedtuple (`result[:-2]`): the row minus the two
timestamp columns.  The namedtuple declares its sixth field as
`source_time`, but it is filled from the `source_type` column. -/
structure Version where
  uuid : String
  page_uuid : String
  capture_time : Nat
  uri : String
  version_hash : String
  source_time : String
  source_metadata : Jsn

def toVersion (r : VersionRow) : Version :=
  ⟨r.uuid, r.page_uuid, r.capture_time, r.uri, r.version_hash,
   r.source_type, r.source_metadata⟩

/-- Python `==` on two `Version` namedtuples: componentwise equality. -/
def vereq (a b : Version) : Bool :=
  a.uuid == b.uuid && a.page_uuid == b.page_uuid &&
  a.capture_time == b.capture_time && a.uri == b.uri &&
  a.version_hash == b.version_hash && a.source_time == b.source_time &&
  jeq a.source_metadata b.source_metadata

/-- A row of the `Diffs` table. -/
structure DiffRow where
  uuid : String
  version_from : String
  version_to : String
  diffhash : String
  uri : String
  source_type : String
  source_metadata : Jsn
  created_at : Nat
  updated_at : Nat

/-- The `Diff` namedtuple returned by `Diffs.__getitem__`, with the lazily
loaded file `content` in place. -/
structure DiffRec where
  uuid : String
  version_from : String
  version_to : String
  diffhash : String
  uri : String
  source_type : String
  source_metadata : Jsn
  content : Jsn

/-- A row of the `Annotations` table.  The column after the judgment blob
is `author`; `annot` is the judgment blob (column name `annotation`). -/
structure AnnRow where
  uuid : String
  version_from : String
  version_to : String
  annot : Jsn
  author : Cell
  created_at : Nat
  updated_at : Nat

/-- The `Annotation` namedtuple returned by lookups (`result[:-2]`). -/
structure AnnRec where
  uuid : String
  version_from : String
  version_to : String
  annot : Jsn
  author : Cell

def toAnnRec (r : AnnRow) : AnnRec :=
  ⟨r.uuid, r.version_from, r.version_to, r.annot, r.author⟩

/-- The whole mutable world of `db.py`: the four tables (Pages omitted —
no claim touches it), the module-level `Diffs.unprocessed` deque, the
file stores behind `uri` locators, a counter generating fresh names
(modelling `uuid.uuid4()` / `tempfile`), and a logical clock
(modelling `datetime.datetime.utcnow()`). -/
structure DbState where
  versions : List VersionRow
  diffRows : List DiffRow
  diffUnprocessed : List String
  annRows : List AnnRow
  files : List (String × Jsn)
  htmlFiles : List (String × String)
  counter : Nat
  clock : Nat

def freshId (st : DbState) : String := "id" ++ toString st.counter

def freshPath (st : DbState) : String := "fp" ++ toString st.counter

namespace Versions

/-- `Versions.__getitem__`: `fetchone()` on a uuid match; an absent row
comes back as `None` and `None[:-2]` raises `TypeError`. -/
def lookup (st : DbState) (u : String) : Except Err Version :=
  match st.versions.find? (fun r => r.uuid == u) with
  | some r => .ok (toVersion r)
  | none => .error .pyTypeError

/-- First row of minimal `capture_time` (SQL `ORDER BY capture_time`
with a stable tie-break by table order, then `fetchone()`). -/
def minByCapture : List VersionRow → Option VersionRow
  | [] => none
  | r :: rs =>
    match minByCapture rs with
    | none => some r
    | some m => if m.capture_time < r.capture_time then some m else some r

/-- `Versions.oldest`: order the page rows by `capture_time` and take the
first; with no rows, `fetchone()` gives `None` and `None[:-2]` raises
`TypeError` (not any typed error of this package). -/
def oldest (st : DbState) (page : String) : Except Err Version :=
  match minByCapture (st.versions.filter (fun r => r.page_uuid == page)) with
  | some r => .ok (toVersion r)
  | none => .error .pyTypeError

end Versions

namespace Diffs

/-- `Diffs.insert`: reads `result["output"]["diffs"]` (KeyError when a key
is missing, before any mutation), hashes its `str()`, dumps `result` to a
fresh file, appends the row, and appends the fresh uuid to the
module-level `unprocessed` deque.  Returns the fresh uuid. -/
def insert (sha : String → String) (st : DbState)
    (version_from version_to : String) (result : Jsn)
    (source_type : String) (source_metadata : Jsn) :
    Except Err String × DbState :=
  match objGet result "output" with
  | none => (.error .pyKeyError, st)
  | some out =>
    match objGet out "diffs" with
    | none => (.error .pyKeyError, st)
    | some body =>
      let diffhash := sha (strPy body)
      let u := freshId st
      let fp := freshPath st
      let now := st.clock
      let row : DiffRow :=
        ⟨u, version_from, version_to, diffhash, fp,
         source_type, source_metadata, now, now⟩
      (.ok u,
       { st with
         diffRows := st.diffRows ++ [row]
         files := st.files ++ [(fp, result)]
         diffUnprocessed := st.diffUnprocessed ++ [u]
         counter := st.counter + 1
         clock := st.clock + 1 })

/-- `Diffs.__getitem__`: row lookup (absent row: `None[:-2]`, TypeError),
then `open(uri)` and `json.load` (missing file: OSError). -/
def lookup (st : DbState) (u : String) : Except Err DiffRec :=
  match st.diffRows.find? (fun r => r.uuid == u) with
  | none => .error .pyTypeError
  | some r =>
    match st.files.find? (fun p => p.1 == r.uri) with
    | none => .error .pyOSError
    | some p =>
      .ok ⟨r.uuid, r.version_from, r.version_to, r.diffhash, r.uri,
           r.source_type, r.source_metadata, p.2⟩

end Diffs

namespace Annotations

/-- `Annotations.insert`: builds `values = (_uuid, version_from,
version_to, annotation, now, now)` — a SIX-tuple against the SEVEN
columns `(uuid, version_from, version_to, annotation, author,
created_at, updated_at)`.  The tuple is zipped against the columns in
order, so the `author` column receives the timestamp `now`, the
`created_at` column the second `now`, `updated_at` its default, and the
`author` argument is never stored.  Always succeeds and returns the
fresh uuid. -/
def insert (st : DbState) (version_from version_to : String)
    (annot : Jsn) (author : String) : String × DbState :=
  let u := freshId st
  let now := st.clock
  let row : AnnRow := ⟨u, version_from, version_to, annot, Cell.t now, now, now⟩
  (u,
   { st with
     annRows := st.annRows ++ [row]
     counter := st.counter + 1
     clock := st.clock + 1 })

/-- `Annotations.__getitem__`. -/
def lookup (st : DbState) (u : String) : Except Err AnnRec :=
  match st.annRows.find? (fun r => r.uuid == u) with
  | some r => .ok (toAnnRec r)
  | none => .error .pyTypeError

/-- `Annotations.by_change`: the source writes
`(c.version_from == vf) and (c.version_to == vt)` with Python `and`.
`bool()` of the first comparison is SQLAlchemy's
`BinaryExpression.__bool__`, which for an `eq` expression compares
`hash(Column) == hash(vf)` — false — so `and` yields its LEFT operand
and the emitted query filters on `version_from` only. -/
def by_change (st : DbState) (version_from version_to : String) :
    List AnnRec :=
  (st.annRows.filter (fun r => r.version_from == version_from)).map toAnnRec

/-- What the spec says `by_change` does: filter on BOTH endpoints.
(Comparison definition, written from the spec's words.) -/
def by_change_spec (st : DbState) (version_from version_to : String) :
    List AnnRec :=
  (st.annRows.filter
    (fun r => r.version_from == version_from && r.version_to == version_to)).map toAnnRec

end Annotations

/-- Keys of a Python-dict association list, in insertion order. -/
def dictKeys (m : List (Nat × String)) : List Nat := m.map Prod.fst

/-- `dict.values()`, in insertion order. -/
def dictVals (m : List (Nat × String)) : List String := m.map Prod.snd

/-- `m[k]` as an Option. -/
def dictGet (m : List (Nat × String)) (k : Nat) : Option String :=
  (m.find? (fun p => p.1 == k)).map Prod.snd

/-- `m[k] = v`: overwrite in place when the key exists, else append. -/
def dictSet (m : List (Nat × String)) (k : Nat) (v : String) :
    List (Nat × String) :=
  if m.any (fun p => p.1 == k) then
    m.map (fun p => if p.1 == k then (k, v) else p)
  else m ++ [(k, v)]

/-- `m.pop(k)` (the removal part; the KeyError case is handled at the
call sites). -/
def dictPop (m : List (Nat × String)) (k : Nat) : List (Nat × String) :=
  m.filter (fun p => !(p.1 == k))

/-- The `for diff_uuid in priorities: if diff_uuid not in
checked_out.values()` scan: first pending identity that is not a
current claim value. -/
def scanFirst (ps vals : List String) : Option String :=
  ps.find? (fun d => !(vals.contains d))

/-- `WorkQueue`: a priority-ordered pending list and the claim map
`checked_out` (reviewer id -> claimed diff uuid).  Reviewer identities
are modelled as naturals. -/
structure WorkQueue where
  priorities : List String
  checked_out : List (Nat × String)

/-- `WorkQueue.__init__(priorities, diffs)`. -/
def mkQueue (ps : List String) : WorkQueue := ⟨ps, []⟩

namespace WorkQueue

/-- `checkout_next`: scan for the first unclaimed pending identity;
record the claim FIRST, then load the Diff (so a failing load leaves
the claim in place); with no unclaimed identity raise `EmptyWorkQueue`
without touching the claim map. -/
def checkout_next (st : DbState) (q : WorkQueue) (user : Nat) :
    Except Err DiffRec × WorkQueue :=
  match scanFirst q.priorities (dictVals q.checked_out) with
  | some d =>
    (Diffs.lookup st d, { q with checked_out := dictSet q.checked_out user d })
  | none => (.error .emptyWorkQueue, q)

/-- `checkout`: release the caller's own prior claim if any, record the
requested claim (no check that someone else already holds it), then
load the Diff. -/
def checkout (st : DbState) (q : WorkQueue) (user : Nat) (d : String) :
    Except Err DiffRec × WorkQueue :=
  let q1 :=
    if q.checked_out.any (fun p => p.1 == user) then
      { q with checked_out := dictPop q.checked_out user }
    else q
  (Diffs.lookup st d, { q1 with checked_out := dictSet q1.checked_out user d })

/-- `checkin`: `checked_out.pop(user)`; KeyError when the reviewer holds
nothing. -/
def checkin (q : WorkQueue) (user : Nat) : Except Err Unit × WorkQueue :=
  if q.checked_out.any (fun p => p.1 == user) then
    (.ok (), { q with checked_out := dictPop q.checked_out user })
  else (.error .pyKeyError, q)

end WorkQueue

/-- One WorkQueue call in an operation sequence. -/
inductive Op where
  | next (user : Nat) : Op
  | checkout (user : Nat) (d : String) : Op
  | checkin (user : Nat) : Op
  deriving DecidableEq

/-- The queue-state effect of one call (the returned Diff or exception
goes to the caller; the queue state below is what persists). -/
def opStep (st : DbState) (q : WorkQueue) : Op → WorkQueue
  | .next u => (WorkQueue.checkout_next st q u).2
  | .checkout u d => (WorkQueue.checkout st q u d).2
  | .checkin u => (WorkQueue.checkin q u).2

/-- Run a sequence of WorkQueue calls, threading the queue state. -/
def runOps (st : DbState) (q : WorkQueue) (ops : List Op) : WorkQueue :=
  ops.foldl (opStep st) q

/-- Python `result["status"] != "ok"` is False exactly when the value is
the string `"ok"`. -/
def isOkStatus : Jsn → Bool
  | .str s => s == "ok"
  | _ => false

/-- `diff_version`: load the Version, resolve the oldest Version of its
page, raise `NoAncestor` when they are equal, read both HTML payloads,
call the external comparison, raise `PageFreezerError` on a non-"ok"
status, and insert the Diff.  The Python function has no `return`
statement: on success it returns `None` — the fresh uuid produced by
`Diffs.insert` is discarded, hence the `Option String` success value
that is always `none`. -/
def diff_version (sha : String → String) (cmp : String → String → Jsn)
    (st : DbState) (version_uuid : String)
    (source_type : String) (source_metadata : Jsn) :
    Except Err (Option String) × DbState :=
  match Versions.lookup st version_uuid with
  | .error e => (.error e, st)
  | .ok version =>
    match Versions.oldest st version.page_uuid with
    | .error e => (.error e, st)
    | .ok ancestor =>
      if vereq ancestor version then (.error .noAncestor, st)
      else
        match st.htmlFiles.find? (fun p => p.1 == ancestor.uri) with
        | none => (.error .pyOSError, st)
        | some h1 =>
          match st.htmlFiles.find? (fun p => p.1 == version.uri) with
          | none => (.error .pyOSError, st)
          | some h2 =>
            let result := cmp h1.2 h2.2
            match objGet result "status" with
            | none => (.error .pyKeyError, st)
            | some status =>
              if isOkStatus status then
                match objGet result "result" with
                | none => (.error .pyKeyError, st)
                | some payload =>
                  match Diffs.insert sha st ancestor.uuid version.uuid
                      payload source_type source_metadata with
                  | (.ok _, st') => (.ok none, st')
                  | (.error e, st') => (.error e, st')
              else (.error .pageFreezerError, st)

/-- Fresh WorkQueue over `ps` after `k` `checkout_next` calls by the
pairwise distinct reviewers `0, 1, ..., k-1`. -/
def runFresh (st : DbState) (ps : List String) : Nat → WorkQueue
  | 0 => mkQueue ps
  | k + 1 => (WorkQueue.checkout_next st (runFresh st ps k) k).2

/-! ### Generic helper lemmas -/

theorem find?_append_none {α : Type} (p : α → Bool) (l1 l2 : List α)
    (h : l1.find? p = none) : (l1 ++ l2).find? p = l2.find? p := by
  rw [List.find?_append, h, Option.none_or]

theorem find?_first {α : Type} (p : α → Bool) :
    ∀ (l : List α) (i : Nat) (hi : i < l.length),
      p (l.get ⟨i, hi⟩) = true →
      (∀ j (hj : j < l.length), j < i → p (l.get ⟨j, hj⟩) = false) →
      l.find? p = some (l.get ⟨i, hi⟩) := by
  intro l
  induction l with
  | nil => intro i hi; simp at hi
  | cons a l ih =>
    intro i hi hp hbefore
    cases i with
    | zero => simp at hp; simp [List.find?_cons_of_pos _ hp]
    | succ i =>
      have ha : p a = false := hbefore 0 (Nat.succ_pos _) (Nat.succ_pos _)
      rw [List.find?_cons_of_neg _ (by simp [ha])]
      have hi' : i < l.length := Nat.lt_of_succ_lt_succ hi
      have := ih i hi' hp (fun j hj hji =>
        hbefore (j + 1) (Nat.succ_lt_succ hj) (Nat.succ_lt_succ hji))
      simpa using this

/-! ### Fixtures: small concrete states used by witnesses and
counterexamples -/

/-- The empty database world. -/
def st0 : DbState := ⟨[], [], [], [], [], [], 0, 0⟩

/-- Two Versions of page `"p"`: `u1` captured at time 0, `u2` at time
10, with both HTML payloads on file. -/
def v1 : VersionRow := ⟨"u1", "p", 0, "h1", "hash1", "pf", Jsn.null, 0, 0⟩

def v2 : VersionRow := ⟨"u2", "p", 10, "h2", "hash2", "pf", Jsn.null, 0, 0⟩

def stV : DbState :=
  { st0 with versions := [v1, v2],
             htmlFiles := [("h1", "<html>a</html>"), ("h2", "<html>b</html>")] }

/-- A stand-in for the SHA-256 hex digest (the hash function is an
external primitive; no theorem depends on its values). -/
def shaW : String → String := fun s => "sha256:" ++ s

/-- A stand-in PageFreezer comparison returning a well-formed success
response. -/
def cmpW : String → String → Jsn := fun _ _ =>
  Jsn.obj [("status", Jsn.str "ok"),
           ("result", Jsn.obj [("output", Jsn.obj [("diffs", Jsn.str "DIFFBODY")])])]

/-- One Diff `d1` on file, plus its payload. -/
def stD1 : DbState :=
  { st0 with diffRows := [⟨"d1", "u1", "u2", "H", "fp9", "pf", Jsn.null, 0, 0⟩],
             files := [("fp9", Jsn.null)] }

/-! ### C6 -/

/-- C6: the claim says `by_change(version_from, version_to)` returns
exactly the Annotations matching BOTH endpoints.  The code builds the
filter with Python `and` on two SQLAlchemy column comparisons, which
collapses to the left comparison alone, so the query filters on
`version_from` only: with two stored rows `("f","t1")` and `("f","t2")`,
`by_change("f","t1")` returns both, while the spec behaviour
(`by_change_spec`) returns only the first.  The code contradicts its own
docstring ("all Annotations for a given change"). -/
theorem c6_by_change_ignores_version_to :
    (Annotations.by_change
        { st0 with annRows := [⟨"a1", "f", "t1", Jsn.null, Cell.s "al", 0, 0⟩,
                               ⟨"a2", "f", "t2", Jsn.null, Cell.s "bo", 1, 1⟩] }
        "f" "t1").map (fun r => r.version_to) = ["t1", "t2"] ∧
    (Annotations.by_change_spec
        { st0 with annRows := [⟨"a1", "f", "t1", Jsn.null, Cell.s "al", 0, 0⟩,
                               ⟨"a2", "f", "t2", Jsn.null, Cell.s "bo", 1, 1⟩] }
        "f" "t1").map (fun r => r.version_to) = ["t1"] :=
  ⟨rfl, rfl⟩

/-! ### C7 -/

/-- C7: the claim says the persisted record carries the given author
value.  `Annotations.insert` builds a six-value tuple against seven
columns, so the `author` column receives the creation timestamp instead
of the `author` argument: inserting with author `"alice"` and reading
the record back yields an author cell holding the timestamp, not
`"alice"`.  (The insert does succeed and does return the fresh
identity, as claimed.) -/
theorem c7_author_column_gets_timestamp :
    (Annotations.insert st0 "vf" "vt" Jsn.null "alice").1 = "id0" ∧
    Annotations.lookup (Annotations.insert st0 "vf" "vt" Jsn.null "alice").2 "id0"
      = Except.ok ⟨"id0", "vf", "vt", Jsn.null, Cell.t 0⟩ ∧
    Cell.t 0 ≠ Cell.s "alice" :=
  ⟨rfl, rfl, by decide⟩

/-! ### minByCapture lemmas (for C8 and C4) -/

theorem minByCapture_eq_none :
    ∀ l : List VersionRow, Versions.minByCapture l = none ↔ l = [] := by
  intro l
  cases l with
  | nil => simp [Versions.minByCapture]
  | cons a l =>
    simp only [Versions.minByCapture]
    cases hm : Versions.minByCapture l with
    | none => simp
    | some m =>
      constructor
      · intro h; by_cases hc : m.capture_time < a.capture_time <;>
          simp [hc] at h
      · intro h; exact absurd h (List.cons_ne_nil a l)

theorem minByCapture_mem :
    ∀ (l : List VersionRow) (r : VersionRow),
      Versions.minByCapture l = some r → r ∈ l := by
  intro l
  induction l with
  | nil => intro r h; simp [Versions.minByCapture] at h
  | cons a l ih =>
    intro r h
    simp only [Versions.minByCapture] at h
    cases hm : Versions.minByCapture l with
    | none => rw [hm] at h; simp at h; simp [h]
    | some m =>
      rw [hm] at h
      dsimp only at h
      by_cases hc : m.capture_time < a.capture_time
      · rw [if_pos hc] at h; simp at h; subst h
        exact List.mem_cons_of_mem a (ih _ hm)
      · rw [if_neg hc] at h; simp at h; simp [h]

theorem minByCapture_min :
    ∀ (l : List VersionRow) (r : VersionRow),
      Versions.minByCapture l = some r →
      ∀ x ∈ l, r.capture_time ≤ x.capture_time := by
  intro l
  induction l with
  | nil => intro r h; simp [Versions.minByCapture] at h
  | cons a l ih =>
    intro r h x hx
    simp only [Versions.minByCapture] at h
    cases hm : Versions.minByCapture l with
    | none =>
      rw [hm] at h; simp at h; subst h
      have : l = [] := (minByCapture_eq_none l).mp hm
      subst this
      simp at hx; subst hx; exact Nat.le_refl _
    | some m =>
      rw [hm] at h
      dsimp only at h
      rcases List.mem_cons.mp hx with hxa | hxl
      · subst hxa
        by_cases hc : m.capture_time < x.capture_time
        · rw [if_pos hc] at h; simp at h; subst h; exact Nat.le_of_lt hc
        · rw [if_neg hc] at h; simp at h; subst h; exact Nat.le_refl _
      · by_cases hc : m.capture_time < a.capture_time
        · rw [if_pos hc] at h; simp at h; subst h; exact ih _ hm x hxl
        · rw [if_neg hc] at h; simp at h; subst h
          exact Nat.le_trans (Nat.le_of_not_lt hc) (ih m hm x hxl)

theorem minByCapture_eq_of_strict :
    ∀ (l : List VersionRow) (r : VersionRow), r ∈ l →
      (∀ x ∈ l, x ≠ r → r.capture_time < x.capture_time) →
      Versions.minByCapture l = some r := by
  intro l
  induction l with
  | nil => intro r hr; simp at hr
  | cons a l ih =>
    intro r hr hstrict
    simp only [Versions.minByCapture]
    rcases List.mem_cons.mp hr with hra | hrl
    · subst hra
      cases hm : Versions.minByCapture l with
      | none => rfl
      | some m =>
        have hmem := minByCapture_mem l m hm
        dsimp only
        by_cases hmr : m = r
        · subst hmr; simp [Nat.lt_irrefl]
        · have := hstrict m (List.mem_cons_of_mem r hmem) hmr
          rw [if_neg (Nat.not_lt_of_gt this)]
    · have hm := ih r hrl (fun x hx hxr =>
        hstrict x (List.mem_cons_of_mem a hx) hxr)
      rw [hm]
      dsimp only
      by_cases har : a = r
      · subst har; simp [Nat.lt_irrefl]
      · have := hstrict a (List.mem_cons_self a l) har
        rw [if_pos this]

/-! ### C8 -/

/-- C8 counterexample: on a Page with no Versions the claim says
`oldest` fails with `NotFoundError`; in the code `fetchone()` returns
`None` and `None[:-2]` raises a plain `TypeError`, so the failure is
not `NotFoundError` (which `db.py` never even defines). -/
theorem c8_counterexample :
    st0.versions = [] ∧
    Versions.oldest st0 "p" ≠ Except.error Err.notFoundError := by
  refine ⟨rfl, ?_⟩
  intro h
  rw [show Versions.oldest st0 "p" = Except.error Err.pyTypeError from rfl] at h
  exact Err.noConfusion (Except.error.inj h)

/-- C8 (amended): for a page with at least one Version, `oldest`
returns a Version of that page with minimal `capture_time`; for a page
with no Versions it fails, but with an untyped `TypeError` (subscripting
the absent row), not with `NotFoundError`. -/
theorem c8_oldest_min_or_typeerror (st : DbState) (page : String) :
    ((∃ r ∈ st.versions, r.page_uuid = page) →
      ∃ m ∈ st.versions, m.page_uuid = page ∧
        Versions.oldest st page = Except.ok (toVersion m) ∧
        ∀ x ∈ st.versions, x.page_uuid = page →
          m.capture_time ≤ x.capture_time) ∧
    ((∀ r ∈ st.versions, r.page_uuid ≠ page) →
      Versions.oldest st page = Except.error Err.pyTypeError) := by
  constructor
  · rintro ⟨r, hr, hpage⟩
    have hrf : r ∈ st.versions.filter (fun x => x.page_uuid == page) :=
      List.mem_filter.mpr ⟨hr, by simp [hpage]⟩
    have hne : st.versions.filter (fun x => x.page_uuid == page) ≠ [] :=
      List.ne_nil_of_mem hrf
    cases hm : Versions.minByCapture
        (st.versions.filter (fun x => x.page_uuid == page)) with
    | none => exact absurd ((minByCapture_eq_none _).mp hm) hne
    | some m =>
      have hmemf := minByCapture_mem _ m hm
      have hmem := List.mem_filter.mp hmemf
      refine ⟨m, hmem.1, by simpa using hmem.2, ?_, ?_⟩
      · simp only [Versions.oldest, hm]
      · intro x hx hxp
        exact minByCapture_min _ m hm x
          (List.mem_filter.mpr ⟨hx, by simp [hxp]⟩)
  · intro hnone
    have hfil : st.versions.filter (fun x => x.page_uuid == page) = [] := by
      rw [List.filter_eq_nil_iff]
      intro r hr
      simpa using hnone r hr
    simp only [Versions.oldest, hfil, Versions.minByCapture]

/-- C8 witness: on the two-Version fixture page, `oldest` returns the
minimal-capture-time Version `v1`. -/
theorem c8_witness :
    ∃ m ∈ stV.versions, m.page_uuid = "p" ∧
      Versions.oldest stV "p" = Except.ok (toVersion m) ∧
      ∀ x ∈ stV.versions, x.page_uuid = "p" →
        m.capture_time ≤ x.capture_time :=
  (c8_oldest_min_or_typeerror stV "p").1 ⟨v1, List.mem_cons_self v1 [v2], rfl⟩

/-! ### C10 -/

theorem dictSet_cons_ne (p : Nat × String) (m : List (Nat × String))
    (k : Nat) (v : String) (hp : ¬p.1 = k) :
    dictSet (p :: m) k v = p :: dictSet m k v := by
  simp only [dictSet, List.any_cons, beq_iff_eq, hp]
  by_cases hm : m.any (fun q => q.1 == k) <;>
    simp [hm, hp, List.map_cons]

theorem dictGet_dictSet (m : List (Nat × String)) (k : Nat) (v : String) :
    dictGet (dictSet m k v) k = some v := by
  induction m with
  | nil => simp [dictSet, dictGet]
  | cons p m ih =>
    by_cases hp : p.1 = k
    · simp [dictSet, dictGet, hp]
    · rw [dictSet_cons_ne p m k v hp]
      simp only [dictGet]
      rw [List.find?_cons_of_neg _ (by simp [hp])]
      exact ih

/-- C10: both `checkout_next` and `checkout` write the claim into
`checked_out` before loading the Diff, so when the Diff lookup fails
(row absent or payload unreadable) the call raises yet the recorded
claim survives in the claim map — the mutation is not rolled back. -/
theorem c10_claim_survives_failed_lookup
    (st : DbState) (q : WorkQueue) (user : Nat) (d : String) (e : Err)
    (hscan : scanFirst q.priorities (dictVals q.checked_out) = some d)
    (hlook : Diffs.lookup st d = Except.error e) :
    (WorkQueue.checkout_next st q user).1 = Except.error e ∧
    dictGet (WorkQueue.checkout_next st q user).2.checked_out user = some d ∧
    (WorkQueue.checkout st q user d).1 = Except.error e ∧
    dictGet (WorkQueue.checkout st q user d).2.checked_out user = some d := by
  refine ⟨?_, ?_, ?_, ?_⟩
  · simp only [WorkQueue.checkout_next, hscan]; exact hlook
  · simp only [WorkQueue.checkout_next, hscan]; exact dictGet_dictSet _ _ _
  · simp only [WorkQueue.checkout]; exact hlook
  · simp only [WorkQueue.checkout]; exact dictGet_dictSet _ _ _

/-- C10 witness: empty Diffs store, pending list `["d1"]`: the lookup
fails with TypeError but reviewer 0's claim on `"d1"` is recorded. -/
theorem c10_witness :
    (WorkQueue.checkout_next st0 (mkQueue ["d1"]) 0).1 = Except.error Err.pyTypeError ∧
    dictGet (WorkQueue.checkout_next st0 (mkQueue ["d1"]) 0).2.checked_out 0 = some "d1" ∧
    (WorkQueue.checkout st0 (mkQueue ["d1"]) 0 "d1").1 = Except.error Err.pyTypeError ∧
    dictGet (WorkQueue.checkout st0 (mkQueue ["d1"]) 0 "d1").2.checked_out 0 = some "d1" :=
  c10_claim_survives_failed_lookup st0 (mkQueue ["d1"]) 0 "d1" Err.pyTypeError rfl rfl

/-! ### C2 -/

/-- C2: `checkout_next(user)` returns the Diff of the first identity in
the priority list that is not currently a claim-map value, and records
`user -> that identity`; when every pending identity (vacuously, an
empty priority list included) is already a claim-map value, it fails
with `EmptyWorkQueue` and leaves the queue untouched. -/
theorem c2_checkout_next_first_unclaimed
    (st : DbState) (q : WorkQueue) (user : Nat) :
    (∀ (i : Nat) (hi : i < q.priorities.length) (rec : DiffRec),
      q.priorities.get ⟨i, hi⟩ ∉ dictVals q.checked_out →
      (∀ j (hj : j < q.priorities.length), j < i →
        q.priorities.get ⟨j, hj⟩ ∈ dictVals q.checked_out) →
      Diffs.lookup st (q.priorities.get ⟨i, hi⟩) = Except.ok rec →
      (WorkQueue.checkout_next st q user).1 = Except.ok rec ∧
      dictGet (WorkQueue.checkout_next st q user).2.checked_out user =
        some (q.priorities.get ⟨i, hi⟩)) ∧
    ((∀ d ∈ q.priorities, d ∈ dictVals q.checked_out) →
      WorkQueue.checkout_next st q user = (Except.error Err.emptyWorkQueue, q)) := by
  constructor
  · intro i hi rec hfree hbefore hlook
    have hscan : scanFirst q.priorities (dictVals q.checked_out) =
        some (q.priorities.get ⟨i, hi⟩) := by
      apply find?_first _ _ i hi
      · simpa using hfree
      · intro j hj hji
        simpa using hbefore j hj hji
    refine ⟨?_, ?_⟩
    · simp only [WorkQueue.checkout_next, hscan]; exact hlook
    · simp only [WorkQueue.checkout_next, hscan]; exact dictGet_dictSet _ _ _
  · intro hall
    have hscan : scanFirst q.priorities (dictVals q.checked_out) = none := by
      rw [scanFirst, List.find?_eq_none]
      intro d hd
      simp [hall d hd]
    simp only [WorkQueue.checkout_next, hscan]

/-- C2 witness: with pending `["d0", "d1"]` where `"d0"` is claimed by
reviewer 5 and `"d1"` is on file, reviewer 0 receives `"d1"` (index 1)
and the claim is recorded; and on a fully claimed queue the call fails
with `EmptyWorkQueue`. -/
theorem c2_witness :
    ((WorkQueue.checkout_next stD1 ⟨["d0", "d1"], [(5, "d0")]⟩ 0).1 =
        Except.ok ⟨"d1", "u1", "u2", "H", "fp9", "pf", Jsn.null, Jsn.null⟩ ∧
      dictGet (WorkQueue.checkout_next stD1 ⟨["d0", "d1"], [(5, "d0")]⟩ 0).2.checked_out 0 =
        some "d1") ∧
    WorkQueue.checkout_next stD1 ⟨["d0"], [(5, "d0")]⟩ 0 =
      (Except.error Err.emptyWorkQueue, ⟨["d0"], [(5, "d0")]⟩) := by
  constructor
  · exact (c2_checkout_next_first_unclaimed stD1 ⟨["d0", "d1"], [(5, "d0")]⟩ 0).1
      1 (by decide) ⟨"d1", "u1", "u2", "H", "fp9", "pf", Jsn.null, Jsn.null⟩
      (by decide)
      (by
        intro j hj hj1
        have hj0 : j = 0 := Nat.lt_one_iff.mp hj1
        subst hj0
        exact List.mem_singleton.mpr rfl)
      rfl
  · exact (c2_checkout_next_first_unclaimed stD1 ⟨["d0"], [(5, "d0")]⟩ 0).2
      (by
        intro d hd
        rw [List.mem_singleton.mp hd]
        exact List.mem_singleton.mpr rfl)

/-! ### C4 -/

theorem vereq_refl (v : Version) : vereq v v = true := by
  simp [vereq, jeq_refl]

/-- C4: when the target Version is the baseline of its page — here: it
is a stored row and every other row of the page has strictly larger
`capture_time` (capture times of a page are distinct, per the data
model) — `diff_version` fails with `NoAncestor` and leaves the state,
in particular the Diffs table, unchanged. -/
theorem c4_baseline_no_ancestor
    (sha : String → String) (cmp : String → String → Jsn)
    (st : DbState) (version_uuid : String) (vrow : VersionRow)
    (stype : String) (smeta : Jsn)
    (hfind : st.versions.find? (fun r => r.uuid == version_uuid) = some vrow)
    (hstrict : ∀ x ∈ st.versions, x.page_uuid = vrow.page_uuid → x ≠ vrow →
      vrow.capture_time < x.capture_time) :
    diff_version sha cmp st version_uuid stype smeta =
      (Except.error Err.noAncestor, st) := by
  have hmem : vrow ∈ st.versions := List.mem_of_find?_eq_some hfind
  have hold : Versions.minByCapture
      (st.versions.filter (fun r => r.page_uuid == vrow.page_uuid)) =
      some vrow := by
    apply minByCapture_eq_of_strict
    · exact List.mem_filter.mpr ⟨hmem, by simp⟩
    · intro x hx hxr
      have hx' := List.mem_filter.mp hx
      exact hstrict x hx'.1 (by simpa using hx'.2) hxr
  simp only [diff_version, Versions.lookup, hfind, Versions.oldest]
  rw [show (toVersion vrow).page_uuid = vrow.page_uuid from rfl, hold]
  dsimp only
  rw [if_pos (vereq_refl (toVersion vrow))]

/-- C4 witness: on the fixture page, `u1` (capture time 0, strictly
older than `u2`) is the baseline and `diff_version` on it fails with
`NoAncestor`, leaving the state unchanged. -/
theorem c4_witness :
    diff_version shaW cmpW stV "u1" "pf" Jsn.null =
      (Except.error Err.noAncestor, stV) := by
  apply c4_baseline_no_ancestor shaW cmpW stV "u1" v1 "pf" Jsn.null rfl
  intro x hx hpage hne
  have hx' : x = v1 ∨ x = v2 := by
    have : x ∈ [v1, v2] := hx
    simpa using this
  rcases hx' with h1 | h2
  · exact absurd h1 hne
  · subst h2; decide

/-! ### C9 -/

/-- Successful `Diffs.insert` written out: the fresh uuid is returned and
the row, the dumped payload file, and the pending-queue entry are
appended. -/
theorem insert_unfold (sha : String → String) (st : DbState)
    (vf vt : String) (X out body : Jsn) (stype : String) (smeta : Jsn)
    (hout : objGet X "output" = some out)
    (hbody : objGet out "diffs" = some body) :
    Diffs.insert sha st vf vt X stype smeta =
      (Except.ok (freshId st),
       { st with
         diffRows := st.diffRows ++
           [⟨freshId st, vf, vt, sha (strPy body), freshPath st,
             stype, smeta, st.clock, st.clock⟩]
         files := st.files ++ [(freshPath st, X)]
         diffUnprocessed := st.diffUnprocessed ++ [freshId st]
         counter := st.counter + 1
         clock := st.clock + 1 }) := by
  simp only [Diffs.insert, hout, hbody]

/-- Reading the freshly inserted Diff back. -/
theorem lookup_after_insert (sha : String → String) (st : DbState)
    (vf vt : String) (X out body : Jsn) (stype : String) (smeta : Jsn)
    (hout : objGet X "output" = some out)
    (hbody : objGet out "diffs" = some body)
    (hfreshRow : ∀ r ∈ st.diffRows, r.uuid ≠ freshId st)
    (hfreshFile : ∀ p ∈ st.files, p.1 ≠ freshPath st) :
    Diffs.lookup (Diffs.insert sha st vf vt X stype smeta).2 (freshId st) =
      Except.ok ⟨freshId st, vf, vt, sha (strPy body), freshPath st,
                 stype, smeta, X⟩ := by
  rw [insert_unfold sha st vf vt X out body stype smeta hout hbody]
  simp only [Diffs.lookup]
  have h1 : st.diffRows.find? (fun r => r.uuid == freshId st) = none := by
    rw [List.find?_eq_none]
    intro r hr
    simp [hfreshRow r hr]
  rw [find?_append_none _ _ _ h1]
  rw [List.find?_singleton]
  rw [if_pos (by simp)]
  dsimp only
  have h2 : st.files.find? (fun p => p.1 == freshPath st) = none := by
    rw [List.find?_eq_none]
    intro p hp
    simp [hfreshFile p hp]
  rw [find?_append_none _ _ _ h2]
  rw [List.find?_singleton]
  rw [if_pos (by simp)]

/-- C9: inserting a Diff with a well-formed payload `X` and reading it
back by the returned identity yields a record whose `content`
deep-equals `X` and whose `diffhash` is the hash of the serialized diff
body `X["output"]["diffs"]` (the hash function itself being the external
SHA-256 primitive). -/
theorem c9_insert_lookup_round_trip (sha : String → String) (st : DbState)
    (vf vt : String) (X out body : Jsn) (stype : String) (smeta : Jsn)
    (hout : objGet X "output" = some out)
    (hbody : objGet out "diffs" = some body)
    (hfreshRow : ∀ r ∈ st.diffRows, r.uuid ≠ freshId st)
    (hfreshFile : ∀ p ∈ st.files, p.1 ≠ freshPath st) :
    (Diffs.insert sha st vf vt X stype smeta).1 = Except.ok (freshId st) ∧
    ∃ rec : DiffRec,
      Diffs.lookup (Diffs.insert sha st vf vt X stype smeta).2 (freshId st) =
        Except.ok rec ∧
      rec.content = X ∧ rec.diffhash = sha (strPy body) := by
  refine ⟨?_, ⟨freshId st, vf, vt, sha (strPy body), freshPath st,
              stype, smeta, X⟩, ?_, rfl, rfl⟩
  · rw [insert_unfold sha st vf vt X out body stype smeta hout hbody]
  · exact lookup_after_insert sha st vf vt X out body stype smeta
      hout hbody hfreshRow hfreshFile

/-- C9 witness: round trip on the empty store with payload
`{"output": {"diffs": "B"}}`. -/
theorem c9_witness :
    (Diffs.insert shaW st0 "u1" "u2"
        (Jsn.obj [("output", Jsn.obj [("diffs", Jsn.str "B")])]) "pf" Jsn.null).1 =
      Except.ok (freshId st0) ∧
    ∃ rec : DiffRec,
      Diffs.lookup
          (Diffs.insert shaW st0 "u1" "u2"
            (Jsn.obj [("output", Jsn.obj [("diffs", Jsn.str "B")])]) "pf" Jsn.null).2
          (freshId st0) =
        Except.ok rec ∧
      rec.content = Jsn.obj [("output", Jsn.obj [("diffs", Jsn.str "B")])] ∧
      rec.diffhash = shaW (strPy (Jsn.str "B")) :=
  c9_insert_lookup_round_trip shaW st0 "u1" "u2"
    (Jsn.obj [("output", Jsn.obj [("diffs", Jsn.str "B")])])
    (Jsn.obj [("diffs", Jsn.str "B")]) (Jsn.str "B") "pf" Jsn.null
    rfl rfl (fun r hr => absurd hr (List.not_mem_nil r))
    (fun p hp => absurd hp (List.not_mem_nil p))

/-! ### diff_version success characterization (shared by C3 and C5) -/

theorem lookup_ok_elim (st : DbState) (u : String) (v : Version)
    (h : Versions.lookup st u = Except.ok v) :
    ∃ r, st.versions.find? (fun x => x.uuid == u) = some r ∧
      v = toVersion r := by
  simp only [Versions.lookup] at h
  cases hf : st.versions.find? (fun x => x.uuid == u) with
  | none => rw [hf] at h; exact absurd h (by simp)
  | some r =>
    rw [hf] at h
    exact ⟨r, rfl, (Except.ok.inj h).symm⟩

/-- Every successful `diff_version` run returns Python `None` and ends
in the state obtained from the start state by one `Diffs.insert` whose
endpoints are the oldest Version of the page (`version_from`) and the
target Version (`version_to`). -/
theorem diff_version_ok_unfold (sha : String → String)
    (cmp : String → String → Jsn) (st : DbState) (vuuid : String)
    (stype : String) (smeta : Jsn) (r : Option String) (st' : DbState)
    (h : diff_version sha cmp st vuuid stype smeta = (Except.ok r, st')) :
    r = none ∧ ∃ (vrow : VersionRow) (aV : Version) (out body payload : Jsn),
      st.versions.find? (fun x => x.uuid == vuuid) = some vrow ∧
      Versions.oldest st vrow.page_uuid = Except.ok aV ∧
      objGet payload "output" = some out ∧
      objGet out "diffs" = some body ∧
      st' = { st with
              diffRows := st.diffRows ++
                [⟨freshId st, aV.uuid, vrow.uuid, sha (strPy body),
                  freshPath st, stype, smeta, st.clock, st.clock⟩]
              files := st.files ++ [(freshPath st, payload)]
              diffUnprocessed := st.diffUnprocessed ++ [freshId st]
              counter := st.counter + 1
              clock := st.clock + 1 } := by
  simp only [diff_version] at h
  cases hlk : Versions.lookup st vuuid with
  | error e => rw [hlk] at h; exact absurd h (by simp)
  | ok version =>
    rw [hlk] at h
    dsimp only at h
    obtain ⟨vrow, hfind, hveq⟩ := lookup_ok_elim st vuuid version hlk
    subst hveq
    cases hold : Versions.oldest st (toVersion vrow).page_uuid with
    | error e => rw [hold] at h; exact absurd h (by simp)
    | ok ancestor =>
      rw [hold] at h
      dsimp only at h
      by_cases hv : vereq ancestor (toVersion vrow)
      · rw [if_pos hv] at h; exact absurd h (by simp)
      · rw [if_neg hv] at h
        cases hh1 : st.htmlFiles.find? (fun p => p.1 == ancestor.uri) with
        | none => rw [hh1] at h; exact absurd h (by simp)
        | some h1p =>
          rw [hh1] at h
          dsimp only at h
          cases hh2 : st.htmlFiles.find? (fun p => p.1 == (toVersion vrow).uri) with
          | none => rw [hh2] at h; exact absurd h (by simp)
          | some h2p =>
            rw [hh2] at h
            dsimp only at h
            cases hst : objGet (cmp h1p.2 h2p.2) "status" with
            | none => rw [hst] at h; exact absurd h (by simp)
            | some status =>
              rw [hst] at h
              dsimp only at h
              by_cases hok : isOkStatus status
              · rw [if_pos hok] at h
                cases hres : objGet (cmp h1p.2 h2p.2) "result" with
                | none => rw [hres] at h; exact absurd h (by simp)
                | some payload =>
                  rw [hres] at h
                  dsimp only at h
                  cases hout : objGet payload "output" with
                  | none =>
                    rw [show Diffs.insert sha st ancestor.uuid
                          (toVersion vrow).uuid payload stype smeta =
                        (Except.error Err.pyKeyError, st) by
                      simp only [Diffs.insert, hout]] at h
                    exact absurd h (by simp)
                  | some out =>
                    cases hbody : objGet out "diffs" with
                    | none =>
                      rw [show Diffs.insert sha st ancestor.uuid
                            (toVersion vrow).uuid payload stype smeta =
                          (Except.error Err.pyKeyError, st) by
                        simp only [Diffs.insert, hout, hbody]] at h
                      exact absurd h (by simp)
                    | some body =>
                      rw [insert_unfold sha st ancestor.uuid
                          (toVersion vrow).uuid payload out body stype smeta
                          hout hbody] at h
                      dsimp only at h
                      rw [Prod.mk.injEq] at h
                      obtain ⟨h1, h2⟩ := h
                      refine ⟨(Except.ok.inj h1).symm,
                        vrow, ancestor, out, body, payload, hfind, hold,
                        hout, hbody, h2.symm⟩
              · rw [if_neg hok] at h
                exact absurd h (by simp)

/-! ### C3 -/

/-- C3 counterexample: on the fixture (readable payloads, comparison
reporting success), `diff_version` on the non-baseline Version `u2`
succeeds and inserts exactly one Diff row with identity `"id0"` — but
it returns Python `None`, not that identity: the function body has no
`return`, so the claimed "returns that new Diff's identity" is false. -/
theorem c3_counterexample :
    (diff_version shaW cmpW stV "u2" "pf" Jsn.null).1 = Except.ok none ∧
    ((diff_version shaW cmpW stV "u2" "pf" Jsn.null).2).diffRows.map
      (fun r => r.uuid) = ["id0"] ∧
    (Except.ok none : Except Err (Option String)) ≠ Except.ok (some "id0") :=
  ⟨rfl, rfl, by simp⟩

/-- C3 (amended): for a Version that is not the oldest of its page,
when the payloads are readable and the external comparison reports
success, `diff_version` inserts exactly one new Diff record with
`version_from` the identity of the oldest Version of the page and
`version_to` the target Version's identity — but returns `None` (no
identity); on every failure path it raises an exception and changes
nothing, never silently doing nothing.  (Stated as: every successful
run returns `None` and appends exactly one correctly endpointed row.) -/
theorem c3_success_one_insert_returns_none (sha : String → String)
    (cmp : String → String → Jsn) (st : DbState) (vuuid : String)
    (stype : String) (smeta : Jsn) (r : Option String) (st' : DbState)
    (h : diff_version sha cmp st vuuid stype smeta = (Except.ok r, st')) :
    r = none ∧ ∃ (vrow : VersionRow) (aV : Version) (drow : DiffRow),
      st.versions.find? (fun x => x.uuid == vuuid) = some vrow ∧
      Versions.oldest st vrow.page_uuid = Except.ok aV ∧
      st'.diffRows = st.diffRows ++ [drow] ∧
      drow.version_from = aV.uuid ∧ drow.version_to = vrow.uuid := by
  obtain ⟨hr, vrow, aV, out, body, payload, hfind, hold, hout, hbody, hst⟩ :=
    diff_version_ok_unfold sha cmp st vuuid stype smeta r st' h
  exact ⟨hr, vrow, aV,
    ⟨freshId st, aV.uuid, vrow.uuid, sha (strPy body), freshPath st,
     stype, smeta, st.clock, st.clock⟩,
    hfind, hold, by rw [hst], rfl, rfl⟩

/-- C3 witness: the amended theorem applied to the concrete successful
run of the counterexample fixture. -/
theorem c3_witness :
    (none : Option String) = none ∧
    ∃ (vrow : VersionRow) (aV : Version) (drow : DiffRow),
      stV.versions.find? (fun x => x.uuid == "u2") = some vrow ∧
      Versions.oldest stV vrow.page_uuid = Except.ok aV ∧
      ((diff_version shaW cmpW stV "u2" "pf" Jsn.null).2).diffRows =
        stV.diffRows ++ [drow] ∧
      drow.version_from = aV.uuid ∧ drow.version_to = vrow.uuid :=
  c3_success_one_insert_returns_none shaW cmpW stV "u2" "pf" Jsn.null none
    ((diff_version shaW cmpW stV "u2" "pf" Jsn.null).2) rfl

/-! ### C1: claim-map invariant machinery -/

theorem mem_vals_replace (m : List (Nat × String)) (k : Nat) (v x : String)
    (hx : x ∈ dictVals (m.map (fun p => if p.1 == k then (k, v) else p))) :
    x = v ∨ x ∈ dictVals m := by
  simp only [dictVals, List.map_map, List.mem_map, Function.comp] at hx
  obtain ⟨p, hp, hpx⟩ := hx
  by_cases h1 : p.1 = k
  · simp [h1] at hpx; exact Or.inl hpx.symm
  · simp [h1] at hpx
    exact Or.inr (by simp only [dictVals, List.mem_map]; exact ⟨p, hp, hpx⟩)

theorem keys_replace (m : List (Nat × String)) (k : Nat) (v : String) :
    dictKeys (m.map (fun p => if p.1 == k then (k, v) else p)) = dictKeys m := by
  simp only [dictKeys, List.map_map]
  apply List.map_congr_left
  intro p hp
  by_cases h1 : p.1 = k
  · simp [Function.comp, h1]
  · simp [Function.comp, h1]

theorem vals_nodup_replace (m : List (Nat × String)) (k : Nat) (v : String)
    (hkeys : (dictKeys m).Nodup) (hvals : (dictVals m).Nodup)
    (hv : v ∉ dictVals m) :
    (dictVals (m.map (fun p => if p.1 == k then (k, v) else p))).Nodup := by
  induction m with
  | nil => simp [dictVals]
  | cons p m ih =>
    have hk1 : p.1 ∉ dictKeys m := (List.nodup_cons.mp hkeys).1
    have hk2 : (dictKeys m).Nodup := (List.nodup_cons.mp hkeys).2
    have hv1 : p.2 ∉ dictVals m := (List.nodup_cons.mp hvals).1
    have hv2 : (dictVals m).Nodup := (List.nodup_cons.mp hvals).2
    have hvne : v ≠ p.2 := fun he => hv (by
      simp only [dictVals, List.map_cons]
      rw [he]
      exact List.mem_cons_self _ _)
    have hvm : v ∉ dictVals m := fun he => hv (by
      simp only [dictVals, List.map_cons]
      exact List.mem_cons_of_mem _ he)
    by_cases h1 : p.1 = k
    · have hrest : m.map (fun q => if q.1 = k then (k, v) else q) = m := by
        have : ∀ q ∈ m, (if q.1 = k then ((k, v) : Nat × String) else q) = q := by
          intro q hq
          have : q.1 ≠ k := fun hqk => hk1 (by
            simp only [dictKeys, List.mem_map]
            exact ⟨q, hq, by rw [hqk, h1]⟩)
          simp [this]
        rw [List.map_congr_left this]
        exact List.map_id m
      simp only [List.map_cons, beq_iff_eq, h1, if_true, hrest]
      simp only [dictVals, List.map_cons]
      exact List.nodup_cons.mpr ⟨hvm, hv2⟩
    · simp only [List.map_cons, beq_iff_eq, h1, if_false]
      simp only [dictVals, List.map_cons]
      refine List.nodup_cons.mpr ⟨?_, ?_⟩
      · intro hmem
        rcases mem_vals_replace m k v p.2 (by simpa [dictVals] using hmem) with
          he | hm
        · exact hvne he.symm
        · exact hv1 hm
      · simpa [dictVals] using ih hk2 hv2 hvm

theorem dictSet_nodup (m : List (Nat × String)) (k : Nat) (v : String)
    (hkeys : (dictKeys m).Nodup) (hvals : (dictVals m).Nodup)
    (hv : v ∉ dictVals m) :
    (dictKeys (dictSet m k v)).Nodup ∧ (dictVals (dictSet m k v)).Nodup := by
  by_cases hany : m.any (fun p => p.1 == k)
  · simp only [dictSet, if_pos hany]
    exact ⟨by rw [keys_replace]; exact hkeys,
           vals_nodup_replace m k v hkeys hvals hv⟩
  · simp only [dictSet, if_neg hany]
    have hk : k ∉ dictKeys m := by
      intro hkin
      apply hany
      simp only [dictKeys, List.mem_map] at hkin
      obtain ⟨p, hp, hpk⟩ := hkin
      exact List.any_eq_true.mpr ⟨p, hp, by simp [hpk]⟩
    constructor
    · simp only [dictKeys, List.map_append, List.map_cons, List.map_nil]
      rw [List.nodup_append]
      refine ⟨hkeys, List.nodup_singleton k, ?_⟩
      intro a ha hb
      rw [List.mem_singleton] at hb
      exact hk (hb ▸ ha)
    · simp only [dictVals, List.map_append, List.map_cons, List.map_nil]
      rw [List.nodup_append]
      refine ⟨hvals, List.nodup_singleton v, ?_⟩
      intro a ha hb
      rw [List.mem_singleton] at hb
      exact hv (hb ▸ ha)

theorem dictPop_nodup (m : List (Nat × String)) (k : Nat)
    (hkeys : (dictKeys m).Nodup) (hvals : (dictVals m).Nodup) :
    (dictKeys (dictPop m k)).Nodup ∧ (dictVals (dictPop m k)).Nodup := by
  have hsub : List.Sublist (dictPop m k) m := List.filter_sublist m
  exact ⟨List.Nodup.sublist (List.Sublist.map Prod.fst hsub) hkeys,
         List.Nodup.sublist (List.Sublist.map Prod.snd hsub) hvals⟩

/-- The at-most-one-claimant invariant together with the dict key
invariant. -/
def WQInv (q : WorkQueue) : Prop :=
  (dictKeys q.checked_out).Nodup ∧ (dictVals q.checked_out).Nodup

theorem inv_checkout_next (st : DbState) (q : WorkQueue) (u : Nat)
    (h : WQInv q) : WQInv (WorkQueue.checkout_next st q u).2 := by
  cases hscan : scanFirst q.priorities (dictVals q.checked_out) with
  | none => simp only [WorkQueue.checkout_next, hscan]; exact h
  | some d =>
    simp only [WorkQueue.checkout_next, hscan]
    have hd : d ∉ dictVals q.checked_out := by
      have := List.find?_some hscan
      simpa using this
    exact dictSet_nodup q.checked_out u d h.1 h.2 hd

theorem inv_checkin (q : WorkQueue) (u : Nat) (h : WQInv q) :
    WQInv (WorkQueue.checkin q u).2 := by
  by_cases hc : q.checked_out.any (fun p => p.1 == u)
  · simp only [WorkQueue.checkin, if_pos hc]
    exact dictPop_nodup q.checked_out u h.1 h.2
  · simp only [WorkQueue.checkin, if_neg hc]
    exact h

/-- `true` exactly for explicit `checkout(user, diff)` calls. -/
def isCheckoutOp : Op → Bool
  | .checkout _ _ => true
  | _ => false

theorem inv_run (st : DbState) :
    ∀ (ops : List Op) (q : WorkQueue), WQInv q →
      (∀ op ∈ ops, isCheckoutOp op = false) →
      WQInv (runOps st q ops) := by
  intro ops
  induction ops with
  | nil => intro q h _; exact h
  | cons op ops ih =>
    intro q h hops
    rw [runOps, List.foldl_cons]
    have hrest : ∀ o ∈ ops, isCheckoutOp o = false :=
      fun o ho => hops o (List.mem_cons_of_mem op ho)
    cases op with
    | next u => exact ih _ (inv_checkout_next st q u h) hrest
    | checkout u d =>
      exact absurd (hops _ (List.mem_cons_self _ _)) (by simp [isCheckoutOp])
    | checkin u => exact ih _ (inv_checkin q u h) hrest

/-! ### C1 -/

/-- C1 counterexample: the claim promises no two distinct reviewers ever
hold the same Diff under any sequence of `checkout_next` / `checkout` /
`checkin` calls.  From a fresh queue over `["d1"]` (with `d1` on file),
reviewer 0 takes `d1` via `checkout_next`, then reviewer 1 claims the
same `d1` via `checkout` — which never checks that someone else already
holds it — leaving both reviewers mapped to `"d1"`. -/
theorem c1_counterexample :
    dictGet (runOps stD1 (mkQueue ["d1"])
      [Op.next 0, Op.checkout 1 "d1"]).checked_out 0 = some "d1" ∧
    dictGet (runOps stD1 (mkQueue ["d1"])
      [Op.next 0, Op.checkout 1 "d1"]).checked_out 1 = some "d1" ∧
    (0 : Nat) ≠ 1 :=
  ⟨rfl, rfl, by decide⟩

/-- C1 (amended): for every sequence of `checkout_next` and `checkin`
operations (no explicit `checkout`, which can steal an already claimed
Diff) from a fresh WorkQueue, the claim map's values contain no
duplicates: no two reviewers hold the same Diff identity. -/
theorem c1_nodup_claims_without_checkout (st : DbState) (ps : List String)
    (ops : List Op) (h : ∀ op ∈ ops, isCheckoutOp op = false) :
    (dictVals (runOps st (mkQueue ps) ops).checked_out).Nodup :=
  (inv_run st ops (mkQueue ps) ⟨List.nodup_nil, List.nodup_nil⟩ h).2

/-- C1 witness: a concrete steal-free sequence keeps the claim values
duplicate-free. -/
theorem c1_witness :
    (dictVals (runOps stD1 (mkQueue ["d1", "d2"])
      [Op.next 0, Op.next 1, Op.checkin 0, Op.next 2]).checked_out).Nodup :=
  c1_nodup_claims_without_checkout stD1 ["d1", "d2"]
    [Op.next 0, Op.next 1, Op.checkin 0, Op.next 2] (by decide)

/-! ### C5: reachability of an enqueued Diff through checkout_next -/

theorem runFresh_priorities (st : DbState) (ps : List String) :
    ∀ k, (runFresh st ps k).priorities = ps := by
  intro k
  induction k with
  | zero => rfl
  | succ k ih =>
    cases hscan : scanFirst (runFresh st ps k).priorities
        (dictVals (runFresh st ps k).checked_out) with
    | none => simp only [runFresh, WorkQueue.checkout_next, hscan]; exact ih
    | some d => simp only [runFresh, WorkQueue.checkout_next, hscan]; exact ih

theorem not_any_key (m : List (Nat × String)) (k : Nat)
    (h : ∀ u ∈ dictKeys m, u < k) :
    m.any (fun p => p.1 == k) = false := by
  rw [List.any_eq_false]
  intro p hp
  have : p.1 < k := h p.1 (by simp only [dictKeys, List.mem_map]; exact ⟨p, hp, rfl⟩)
  simp [Nat.ne_of_lt this]

theorem dictSet_append (m : List (Nat × String)) (k : Nat) (v : String)
    (h : m.any (fun p => p.1 == k) = false) :
    dictSet m k v = m ++ [(k, v)] := by
  simp only [dictSet, h]
  rfl

theorem runFresh_keys_lt (st : DbState) (ps : List String) :
    ∀ k, ∀ u ∈ dictKeys (runFresh st ps k).checked_out, u < k := by
  intro k
  induction k with
  | zero => intro u hu; simp [runFresh, mkQueue, dictKeys] at hu
  | succ k ih =>
    intro u hu
    cases hscan : scanFirst (runFresh st ps k).priorities
        (dictVals (runFresh st ps k).checked_out) with
    | none =>
      simp only [runFresh, WorkQueue.checkout_next, hscan] at hu
      exact Nat.lt_succ_of_lt (ih u hu)
    | some d =>
      simp only [runFresh, WorkQueue.checkout_next, hscan] at hu
      rw [dictSet_append _ _ _ (not_any_key _ _ ih)] at hu
      simp only [dictKeys, List.map_append, List.map_cons, List.map_nil,
        List.mem_append, List.mem_singleton] at hu
      rcases hu with hu | hu
      · exact Nat.lt_succ_of_lt (ih u (by simpa [dictKeys] using hu))
      · simp [hu]

theorem runFresh_vals_succ (st : DbState) (ps : List String) (k : Nat)
    (d : String)
    (hscan : scanFirst (runFresh st ps k).priorities
      (dictVals (runFresh st ps k).checked_out) = some d) :
    dictVals (runFresh st ps (k + 1)).checked_out =
      dictVals (runFresh st ps k).checked_out ++ [d] := by
  simp only [runFresh, WorkQueue.checkout_next, hscan]
  rw [dictSet_append _ _ _ (not_any_key _ _ (runFresh_keys_lt st ps k))]
  simp [dictVals]

theorem reach_scan (st : DbState) (ps : List String) (d : String)
    (hd : d ∈ ps) :
    ∀ n k, d ∉ dictVals (runFresh st ps k).checked_out →
      (ps.dedup.filter (fun x =>
        !((dictVals (runFresh st ps k).checked_out).contains x))).length ≤ n →
      ∃ m, scanFirst ps (dictVals (runFresh st ps m).checked_out) = some d := by
  intro n
  induction n with
  | zero =>
    intro k hdk hlen
    exfalso
    have hmem : d ∈ ps.dedup.filter (fun x =>
        !((dictVals (runFresh st ps k).checked_out).contains x)) :=
      List.mem_filter.mpr ⟨List.mem_dedup.mpr hd, by simp [hdk]⟩
    have := List.length_pos.mpr (List.ne_nil_of_mem hmem)
    omega
  | succ n ih =>
    intro k hdk hlen
    have hsome : (ps.find? (fun x =>
        !((dictVals (runFresh st ps k).checked_out).contains x))).isSome :=
      List.find?_isSome.mpr ⟨d, hd, by simp [hdk]⟩
    obtain ⟨e, he⟩ := Option.isSome_iff_exists.mp hsome
    by_cases hed : e = d
    · exact ⟨k, hed ▸ he⟩
    · have he' : scanFirst (runFresh st ps k).priorities
          (dictVals (runFresh st ps k).checked_out) = some e := by
        rw [runFresh_priorities]; exact he
      have hvals := runFresh_vals_succ st ps k e he'
      have hdk' : d ∉ dictVals (runFresh st ps (k + 1)).checked_out := by
        rw [hvals]
        intro hmem
        rcases List.mem_append.mp hmem with h | h
        · exact hdk h
        · rw [List.mem_singleton] at h; exact hed h.symm
      have hemem : e ∈ ps := List.mem_of_find?_eq_some he
      have henot : e ∉ dictVals (runFresh st ps k).checked_out := by
        have := List.find?_some he
        simpa using this
      have hsub : List.Sublist
          (ps.dedup.filter (fun x =>
            !((dictVals (runFresh st ps (k + 1)).checked_out).contains x)))
          (ps.dedup.filter (fun x =>
            !((dictVals (runFresh st ps k).checked_out).contains x))) := by
        apply List.monotone_filter_right
        intro x hx
        simp only [Bool.not_eq_true', ← Bool.not_eq_true] at hx ⊢
        intro hxk
        apply hx
        rw [hvals]
        simp only [List.contains_eq_any_beq, List.any_append] at hxk ⊢
        simp [List.any_eq_true] at hxk ⊢
        exact Or.inl hxk
      have hein : e ∈ ps.dedup.filter (fun x =>
          !((dictVals (runFresh st ps k).checked_out).contains x)) :=
        List.mem_filter.mpr ⟨List.mem_dedup.mpr hemem, by simp [henot]⟩
      have heout : e ∉ ps.dedup.filter (fun x =>
          !((dictVals (runFresh st ps (k + 1)).checked_out).contains x)) := by
        intro hmem
        have := (List.mem_filter.mp hmem).2
        rw [hvals] at this
        simp at this
      have hlt : (ps.dedup.filter (fun x =>
          !((dictVals (runFresh st ps (k + 1)).checked_out).contains x))).length <
          (ps.dedup.filter (fun x =>
            !((dictVals (runFresh st ps k).checked_out).contains x))).length := by
        rcases Nat.lt_or_ge (ps.dedup.filter (fun x =>
            !((dictVals (runFresh st ps (k + 1)).checked_out).contains x))).length
          (ps.dedup.filter (fun x =>
            !((dictVals (runFresh st ps k).checked_out).contains x))).length with
          hlt | hge
        · exact hlt
        · exfalso
          have heq := List.Sublist.eq_of_length_le hsub hge
          rw [heq] at heout
          exact heout hein
      exact ih (k + 1) hdk' (by omega)

/-- C5: every successful `diff_version` run appends the new Diff's
identity to the pending (`unprocessed`) list, and a fresh WorkQueue
constructed over that pending list hands exactly that Diff to some
reviewer after finitely many `checkout_next` calls (reviewers `0..k`). -/
theorem c5_enqueued_and_reachable (sha : String → String)
    (cmp : String → String → Jsn) (st : DbState) (vuuid : String)
    (stype : String) (smeta : Jsn) (r : Option String) (st' : DbState)
    (h : diff_version sha cmp st vuuid stype smeta = (Except.ok r, st'))
    (hfreshQ : freshId st ∉ st.diffUnprocessed)
    (hfreshRow : ∀ row ∈ st.diffRows, row.uuid ≠ freshId st)
    (hfreshFile : ∀ p ∈ st.files, p.1 ≠ freshPath st) :
    ∃ (d : String) (rec : DiffRec),
      st'.diffUnprocessed = st.diffUnprocessed ++ [d] ∧
      Diffs.lookup st' d = Except.ok rec ∧ rec.uuid = d ∧
      ∃ k, (WorkQueue.checkout_next st'
        (runFresh st' st'.diffUnprocessed k) k).1 = Except.ok rec := by
  obtain ⟨hr, vrow, aV, out, body, payload, hfind, hold, hout, hbody, hst⟩ :=
    diff_version_ok_unfold sha cmp st vuuid stype smeta r st' h
  have hsteq : st' = (Diffs.insert sha st aV.uuid vrow.uuid payload
      stype smeta).2 := by
    rw [insert_unfold sha st aV.uuid vrow.uuid payload out body stype smeta
      hout hbody]
    exact hst
  have hlookup : Diffs.lookup st' (freshId st) =
      Except.ok ⟨freshId st, aV.uuid, vrow.uuid, sha (strPy body),
                 freshPath st, stype, smeta, payload⟩ := by
    rw [hsteq]
    exact lookup_after_insert sha st aV.uuid vrow.uuid payload out body
      stype smeta hout hbody hfreshRow hfreshFile
  have hunproc : st'.diffUnprocessed = st.diffUnprocessed ++ [freshId st] := by
    rw [hst]
  have hdmem : freshId st ∈ st'.diffUnprocessed := by
    rw [hunproc]
    exact List.mem_append_right _ (List.mem_singleton.mpr rfl)
  obtain ⟨k, hscan⟩ := reach_scan st' st'.diffUnprocessed (freshId st) hdmem
    ((st'.diffUnprocessed.dedup.filter (fun x =>
      !((dictVals (runFresh st' st'.diffUnprocessed 0).checked_out).contains x))).length)
    0 (by simp [runFresh, mkQueue, dictVals]) (Nat.le_refl _)
  refine ⟨freshId st,
    ⟨freshId st, aV.uuid, vrow.uuid, sha (strPy body), freshPath st,
     stype, smeta, payload⟩,
    hunproc, hlookup, rfl, k, ?_⟩
  have hscan' : scanFirst (runFresh st' st'.diffUnprocessed k).priorities
      (dictVals (runFresh st' st'.diffUnprocessed k).checked_out) =
      some (freshId st) := by
    rw [runFresh_priorities]; exact hscan
  simp only [WorkQueue.checkout_next, hscan']
  exact hlookup

/-- C5 witness: the concrete successful run on the fixture; the new Diff
`id0` lands in the pending list and is handed out by `checkout_next`. -/
theorem c5_witness :
    ∃ (d : String) (rec : DiffRec),
      ((diff_version shaW cmpW stV "u2" "pf" Jsn.null).2).diffUnprocessed =
        stV.diffUnprocessed ++ [d] ∧
      Diffs.lookup (diff_version shaW cmpW stV "u2" "pf" Jsn.null).2 d =
        Except.ok rec ∧ rec.uuid = d ∧
      ∃ k, (WorkQueue.checkout_next (diff_version shaW cmpW stV "u2" "pf" Jsn.null).2
        (runFresh (diff_version shaW cmpW stV "u2" "pf" Jsn.null).2
          ((diff_version shaW cmpW stV "u2" "pf" Jsn.null).2).diffUnprocessed k) k).1 =
        Except.ok rec :=
  c5_enqueued_and_reachable shaW cmpW stV "u2" "pf" Jsn.null none
    ((diff_version shaW cmpW stV "u2" "pf" Jsn.null).2) rfl
    (List.not_mem_nil _)
    (fun row hrow => absurd hrow (List.not_mem_nil row))
    (fun p hp => absurd hp (List.not_mem_nil p))
